import Mathlib

/-!
Verification of the `bulker` task-orchestration core.

Go strings are modelled as `List Char` (`Str`); Go `[]string` as `List Str`.
Go `int` values arising in the orchestrator are non-negative on every
reachable path and are modelled as `Nat`, except where `strconv.Atoi` can
produce negative values, where `Int` is used.
-/

set_option maxHeartbeats 1000000

set_option autoImplicit false

abbrev Str := List Char

/-- Convert a Lean string literal to the `List Char` model of Go strings. -/
def chars (s : String) : Str := s.data

/-! ## Go standard-library string operations used by the program -/

/-- Model of `unicode.IsSpace` restricted to the code points Go treats as
white space (Latin-1 range plus the Unicode space characters). -/
def unicodeIsSpace (c : Char) : Bool :=
  c = ' ' ∨ c = '\t' ∨ c = '\n' ∨ c = (Char.ofNat 11) ∨ c = (Char.ofNat 12) ∨
  c = '\r' ∨ c = (Char.ofNat 0x85) ∨ c = (Char.ofNat 0xA0) ∨
  c = (Char.ofNat 0x1680) ∨ (0x2000 ≤ c.toNat ∧ c.toNat ≤ 0x200a) ∨
  c = (Char.ofNat 0x2028) ∨ c = (Char.ofNat 0x2029) ∨ c = (Char.ofNat 0x202f) ∨
  c = (Char.ofNat 0x205f) ∨ c = (Char.ofNat 0x3000)

/-- Accumulator loop of `strings.Fields`: `acc` holds the characters of the
current in-progress field, in reverse. -/
def fieldsAux : Str → Str → List Str
  | [], acc => if acc = [] then [] else [acc.reverse]
  | c :: rest, acc =>
    if unicodeIsSpace c then
      if acc = [] then fieldsAux rest [] else acc.reverse :: fieldsAux rest []
    else fieldsAux rest (c :: acc)

/-- Model of Go `strings.Fields`: split around runs of white space. -/
def fields (s : Str) : List Str := fieldsAux s []

/-- Prefix test on character lists (Go `strings.HasPrefix`). -/
def beginsWith : Str → Str → Bool
  | [], _ => true
  | _ :: _, [] => false
  | p :: ps, c :: cs => p = c && beginsWith ps cs

/-- Suffix test on character lists (Go `strings.HasSuffix`). -/
def endsWith (suf s : Str) : Bool := beginsWith suf.reverse s.reverse

/-- Replacement loop of `strings.ReplaceAll` for a non-empty pattern
`o :: os`: scan left to right, replacing each match by `new`. -/
def replaceAllAux (o : Char) (os new : Str) : Str → Str
  | [] => []
  | c :: rest =>
    if beginsWith (o :: os) (c :: rest) then
      new ++ replaceAllAux o os new (rest.drop os.length)
    else
      c :: replaceAllAux o os new rest
termination_by s => s.length
decreasing_by
  · simp only [List.length_drop, List.length_cons]; omega
  · simp only [List.length_cons]; omega

/-- Model of Go `strings.ReplaceAll`.  For an empty pattern Go inserts
`new` before, between and after every character. -/
def replaceAll (s old new : Str) : Str :=
  match old with
  | [] => new ++ s.foldr (fun c acc => c :: (new ++ acc)) []
  | o :: os => replaceAllAux o os new s

/-- Model of Go `strings.Join`. -/
def goJoin (elems : List Str) (sep : Str) : Str := sep.intercalate elems

/-- Model of Go `strings.TrimSpace`: drop white space from both ends. -/
def trimSpace (s : Str) : Str :=
  ((s.dropWhile unicodeIsSpace).reverse.dropWhile unicodeIsSpace).reverse

/-- Model of Go `strings.Trim`: drop characters in `cutset` from both ends. -/
def goTrim (s cutset : Str) : Str :=
  ((s.dropWhile (· ∈ cutset)).reverse.dropWhile (· ∈ cutset)).reverse

/-- Model of Go `strings.TrimSuffix`. -/
def trimSuffix (s suf : Str) : Str :=
  if endsWith suf s then s.take (s.length - suf.length) else s

/-- Numeric value of a decimal digit character, `none` otherwise. -/
def digitVal? (c : Char) : Option Nat :=
  if '0' ≤ c ∧ c ≤ '9' then some (c.toNat - '0'.toNat) else none

/-- Digit-accumulation loop of `strconv.Atoi`. -/
def parseDigitsAux : Str → Nat → Option Nat
  | [], acc => some acc
  | c :: rest, acc =>
    match digitVal? c with
    | some d => parseDigitsAux rest (acc * 10 + d)
    | none => none

/-- Model of Go `strconv.Atoi` (arbitrary precision; the orchestrator never
produces values outside the machine range). -/
def atoi (s : Str) : Option Int :=
  match s with
  | [] => none
  | c :: rest =>
    if c = '+' then
      if rest = [] then none else (parseDigitsAux rest 0).map Int.ofNat
    else if c = '-' then
      if rest = [] then none else (parseDigitsAux rest 0).map (fun n => -(n : Int))
    else
      (parseDigitsAux (c :: rest) 0).map Int.ofNat

/-- Decimal digit emission loop of `fmt.Sprintf` `%d` for non-negative
values: most significant digit first, accumulated on the right. -/
def natCharsAux (n : Nat) (acc : Str) : Str :=
  if n < 10 then Nat.digitChar n :: acc
  else natCharsAux (n / 10) (Nat.digitChar (n % 10) :: acc)
termination_by n
decreasing_by exact Nat.div_lt_self (by omega) (by omega)

/-- Decimal rendering of a non-negative Go `int` (`fmt.Sprintf` `%d`). -/
def natChars (n : Nat) : Str := natCharsAux n []

namespace Bulker

/-- Task lifecycle states (`TaskStatus` constants in runner.go). -/
inductive TaskStatus where
  | taskPending
  | taskRunning
  | taskCompleted
  | taskFailed
deriving DecidableEq, Repr

open TaskStatus

/-- One unit of work (`Task` in runner.go).  `startTime`/`endTime` model
`time.Time` fields, `none` standing for Go's zero time. -/
structure Task where
  id : Nat
  inputData : Str
  windowName : Str
  status : TaskStatus
  startTime : Option Nat := none
  endTime : Option Nat := none
deriving DecidableEq, Repr

/-- Tool description loaded from the TOML catalog (`ToolConfig`), together
with the `UseStdout` field consumed by runner.go. -/
structure ToolConfig where
  name : Str := []
  description : Str := []
  mode : Str
  command : Str
  autoOptimizations : List Str := []
  header : Str := []
  examples : List Str := []
  useStdout : Bool := false
deriving DecidableEq, Repr

/-! ## Input reading and task creation (runner.go) -/

/-- Scanner loop of `Runner.readInputFile`: keep exactly the non-empty
lines, in order (`if line != "" { append }`). -/
def readInputLines : List Str → List Str
  | [] => []
  | line :: rest =>
    if line ≠ [] then line :: readInputLines rest else readInputLines rest

/-- Payload encoding of a line range, `fmt.Sprintf("lines_%d_%d", s, e)`. -/
def rangeStr (s e : Nat) : Str :=
  chars "lines_" ++ natChars s ++ chars "_" ++ natChars e

/-- Model of `Runner.parseLineRange`: split on `_`, expect
`["lines", start, end]`, parse both bounds with `strconv.Atoi`. -/
def parseLineRange (s : Str) : Option (Int × Int) :=
  match s.splitOn '_' with
  | [p0, p1, p2] =>
    if p0 = chars "lines" then
      match atoi p1, atoi p2 with
      | some a, some b => some (a, b)
      | _, _ => none
    else none
  | _ => none

/-- Chunk-size computation in `Runner.createTasks` (multiple mode):
`totalLines / workers`, rounded up when there is a remainder, floored
at 1. -/
def chunkSizeOf (totalLines workers : Nat) : Nat :=
  let c := totalLines / workers + (if totalLines % workers ≠ 0 then 1 else 0)
  if c < 1 then 1 else c

/-- The `for startLine := ...; startLine < totalLines; startLine += chunkSize`
loop of `Runner.createTasks` (multiple mode).  The chunk size is passed as
`c + 1` so that it is positive by construction; `createTasks` instantiates
`c` with `chunkSize - 1` where `chunkSize ≥ 1` always holds. -/
def multipleTasksAux (totalLines c : Nat) (startLine taskID : Nat) : List Task :=
  if startLine < totalLines then
    let endLine := min (startLine + (c + 1)) totalLines
    { id := taskID
      inputData := rangeStr startLine (endLine - 1)
      windowName := chars "worker_" ++ natChars taskID
      status := taskPending } ::
      multipleTasksAux totalLines c (startLine + (c + 1)) (taskID + 1)
  else []
termination_by totalLines - startLine
decreasing_by omega

/-- The `for i, line := range r.inputLines` loop of `Runner.createTasks`
(single mode), carrying the running index `i`. -/
def singleTasksAux : Nat → List Str → List Task
  | _, [] => []
  | i, line :: rest =>
    { id := i
      inputData := line
      windowName := chars "worker_" ++ natChars i
      status := taskPending } :: singleTasksAux (i + 1) rest

/-- Model of `Runner.createTasks`. -/
def createTasks (toolMode : Str) (inputLines : List Str) (workers : Nat) :
    List Task :=
  let totalLines := inputLines.length
  if totalLines = 0 then []
  else if toolMode = chars "multiple" then
    multipleTasksAux totalLines (chunkSizeOf totalLines workers - 1) 0 0
  else if toolMode = chars "single" then
    singleTasksAux 0 inputLines
  else []

/-! ## Decoded chunk ranges of multiple mode -/

/-- The inclusive line ranges denoted by the payloads that
`multipleTasksAux` generates, as bare pairs. -/
def taskRangesAux (totalLines c start : Nat) : List (Nat × Nat) :=
  if start < totalLines then
    (start, min (start + (c + 1)) totalLines - 1) ::
      taskRangesAux totalLines c (start + (c + 1))
  else []
termination_by totalLines - start
decreasing_by omega

/-! ## Cancellation token (runner.go: `cancelChan`, `cancelOnce`,
`Runner.cancelTasks`) -/

/-- State of the cancellation token: the `sync.Once` guard and whether
`cancelChan` has been closed. -/
structure CancelState where
  onceDone : Bool
  chanClosed : Bool
deriving DecidableEq, Repr

/-- Token state created by `NewRunner` (`cancelChan: make(chan struct{})`,
zero-valued `sync.Once`). -/
def initialCancelState : CancelState := ⟨false, false⟩

/-- Closing a Go channel: panics (`none`) if the channel is already
closed, otherwise marks it closed. -/
def closeChan (closed : Bool) : Option Bool :=
  if closed then none else some true

/-- Model of `Runner.cancelTasks`:
`r.cancelOnce.Do(func() { close(r.cancelChan) })` — the body runs only on
the first call. -/
def cancelTasks (s : CancelState) : Option CancelState :=
  if s.onceDone then some s
  else (closeChan s.chanClosed).map fun c => ⟨true, c⟩

/-- `n` successive trigger calls, from any mixture of sources (a failing
task or the interrupt handler both call `cancelTasks`). -/
def iterCancel : Nat → CancelState → Option CancelState
  | 0, s => some s
  | n + 1, s => (cancelTasks s).bind (iterCancel n)

/-! ## Per-task status transitions (runner.go: `updateTaskStatus`,
`runTask`, `runTasks`, `runTaskWithCommand`) -/

/-- Model of `Runner.updateTaskStatus`: store the status and, exactly when
the new status is terminal, overwrite `EndTime` with the current time. -/
def updateTaskStatus (t : Task) (status : TaskStatus) (now : Nat) : Task :=
  { t with
    status := status
    endTime :=
      if status = taskCompleted ∨ status = taskFailed then some now
      else t.endTime }

/-- One status write performed by a task goroutine: either the direct
`task.Status = TaskRunning` assignment in `runTask` (which also stamps
`StartTime`), or a call to `updateTaskStatus`. -/
inductive StatusWrite where
  | runAssign (now : Nat)
  | update (status : TaskStatus) (now : Nat)
deriving DecidableEq, Repr

def applyWrite (t : Task) : StatusWrite → Task
  | .runAssign now => { t with status := taskRunning, startTime := some now }
  | .update status now => updateTaskStatus t status now

def applyWrites (t : Task) (ws : List StatusWrite) : Task :=
  ws.foldl applyWrite t

/-- The four control-flow shapes a task goroutine can take in
`runTasks`/`runTask`/`runTaskWithCommand`:
`abandonedInPool` — the `select` in `runTasks` takes the `cancelChan`
branch and returns with no status write;
`cancelledBeforeStart` — a cancellation check in `runTask` or
`runTaskWithCommand` fires before the `TaskRunning` assignment, or an
early error path fires: `updateTaskStatus(_, TaskFailed)` and return;
`ranThenFailed` — the `TaskRunning` assignment followed by any failure
path (`parseLineRange`/chunk/BuildCommand/pipe/start error, cancellation,
or non-zero exit), each of which calls `updateTaskStatus(_, TaskFailed)`
once and returns;
`ranThenCompleted` — the `TaskRunning` assignment followed by
`updateTaskStatus(_, TaskCompleted)` on a zero exit. -/
inductive RunPath where
  | abandonedInPool
  | cancelledBeforeStart
  | ranThenFailed
  | ranThenCompleted
deriving DecidableEq, Repr

/-- The sequence of status writes each control-flow shape performs
(`t1 ≤ t2` are the wall-clock instants of the writes). -/
def runPathWrites : RunPath → Nat → Nat → List StatusWrite
  | .abandonedInPool, _, _ => []
  | .cancelledBeforeStart, t1, _ => [.update taskFailed t1]
  | .ranThenFailed, t1, t2 => [.runAssign t1, .update taskFailed t2]
  | .ranThenCompleted, t1, t2 => [.runAssign t1, .update taskCompleted t2]

/-- Forward order of the task state machine. -/
def statusRank : TaskStatus → Nat
  | taskPending => 0
  | taskRunning => 1
  | taskCompleted => 2
  | taskFailed => 2

/-- Statuses observed along an execution, starting from the initial one. -/
def statusTrace (t : Task) (ws : List StatusWrite) : List TaskStatus :=
  (ws.scanl applyWrite t).map (fun u => u.status)

/-- Writes that stamp `EndTime` (those into a terminal status). -/
def countTerminalWrites (ws : List StatusWrite) : Nat :=
  ws.countP fun w =>
    match w with
    | .update s _ => decide (s = taskCompleted ∨ s = taskFailed)
    | .runAssign _ => false

/-- A freshly created task, as `createTasks` produces them. -/
def freshTask : Task :=
  { id := 0, inputData := [], windowName := [], status := taskPending }

/-! ## End-of-task cleanup of tool-managed output (runner.go 344-371,
`cleanupFunc` inside `Runner.runTask`) -/

/-- Header-stripping step of the cleanup: split on newlines and drop the
first line when it `TrimSpace`-equals the declared non-empty header. -/
def headerTrimmed (header content : Str) : Str :=
  let lines := content.splitOn '\n'
  if 0 < lines.length ∧ header ≠ [] ∧ trimSpace (lines.headD []) = header then
    goJoin (lines.drop 1) (chars "\n")
  else content

/-- Content spliced into the Output Sink by the cleanup:
`strings.Trim(contentToWrite, "\x00")` after header stripping. -/
def cleanupContent (header content : Str) : Str :=
  goTrim (headerTrimmed header content) (chars "\x00")

/-- Observable effect of `cleanupFunc` for an allocated temporary output
file: what is appended to the Output Sink and whether the temp file is
removed.  `none` stands for a temp file the tool never created
(`os.ReadFile` fails with not-exist; nothing is written). -/
structure CleanupEffect where
  written : Str
  tempRemoved : Bool
deriving DecidableEq, Repr

/-- Model of the `cleanupFunc` closure in `Runner.runTask` (the
`tempOutputFile != ""` branch): tools that use stdout skip the merge; the
temp file is removed in every case. -/
def cleanupFunc (useStdout : Bool) (header : Str) (tempContent : Option Str) :
    CleanupEffect :=
  match tempContent with
  | none => ⟨[], true⟩
  | some content =>
    if useStdout then ⟨[], true⟩
    else ⟨cleanupContent header content, true⟩

/-- The transformation C4 describes: the matching leading header line
removed, then every NUL byte removed (embedded ones included). -/
def cleanupContentClaim (header content : Str) : Str :=
  (headerTrimmed header content).filter (fun c => decide (c ≠ '\x00'))

/-! ## Output-file backup (runner.go: `Runner.backupOutputFile`,
`Runner.Run` lines 141-178) -/

/-- File system state: content stored at each path, `none` = absent. -/
def FileSystem : Type := Str → Option Str

/-- `os.Rename(oldPath, newPath)`: the content moves, the old path
disappears. -/
def osRename (fs : FileSystem) (oldPath newPath : Str) : FileSystem :=
  fun q => if q = newPath then fs oldPath
    else if q = oldPath then none else fs q

/-- `os.Create(path)`: truncates/creates an empty file at `path`. -/
def osCreate (fs : FileSystem) (path : Str) : FileSystem :=
  fun q => if q = path then some [] else fs q

/-- Scan loop of `filepath.Ext` over the reversed path: stop at a path
separator, return from the last `.` (inclusive) to the end. -/
def extFromRev : Str → Str → Str
  | [], _ => []
  | c :: rest, acc =>
    if c = '/' then []
    else if c = '.' then c :: acc
    else extFromRev rest (c :: acc)

/-- Model of `filepath.Ext` (Unix path separator). -/
def filepathExt (path : Str) : Str := extFromRev path.reverse []

/-- The backup name built by `backupOutputFile`:
`fmt.Sprintf("%s_%s%s", base, timestamp, ext)` with
`ext := filepath.Ext(outputPath)` and
`base := strings.TrimSuffix(outputPath, ext)`. -/
def backupPath (outputPath timestamp : Str) : Str :=
  trimSuffix outputPath (filepathExt outputPath) ++ chars "_" ++ timestamp ++
    filepathExt outputPath

/-- Model of `Runner.backupOutputFile`: nothing to do when the output path
does not exist, otherwise rename it to the timestamped backup path. -/
def backupOutputFile (fs : FileSystem) (outputPath timestamp : Str) :
    FileSystem :=
  if (fs outputPath).isSome then
    osRename fs outputPath (backupPath outputPath timestamp)
  else fs

/-- The pre-task file-system steps of `Runner.Run`: back up any existing
output file, then create the fresh output file. -/
def runSetup (fs : FileSystem) (outputPath timestamp : Str) : FileSystem :=
  osCreate (backupOutputFile fs outputPath timestamp) outputPath

/-! ## Config-driven command construction (`ConfigManager.BuildCommand`,
`ConfigManager.GetToolConfig`) -/

/-- ASCII lower-casing of `strings.ToLower` (tool names are ASCII). -/
def toLowerChar (c : Char) : Char :=
  if 'A' ≤ c ∧ c ≤ 'Z' then Char.ofNat (c.toNat + 32) else c

/-- Model of Go `strings.ToLower`. -/
def goToLower (s : Str) : Str := s.map toLowerChar

/-- The tool catalog held by a `ConfigManager` (`config.Tools` map),
modelled as an association list keyed by lower-case tool name. -/
structure ConfigManager where
  tools : List (Str × ToolConfig)

/-- Model of `ConfigManager.GetToolConfig`: look the name up after
lower-casing. -/
def GetToolConfig (cm : ConfigManager) (toolName : Str) : Option ToolConfig :=
  cm.tools.lookup (goToLower toolName)

/-- Model of `ConfigManager.BuildCommand`: textual placeholder replacement
on the command template, then `strings.Fields` tokenization.  `none`
models the tool-not-found error. -/
def BuildCommand (cm : ConfigManager) (toolName inputData : Str)
    (args : List Str) (tempOutputFile wordlist : Str) : Option (List Str) :=
  match GetToolConfig cm toolName with
  | none => none
  | some toolConfig =>
    let autoOptimizations := goJoin toolConfig.autoOptimizations (chars " ")
    let argsString := goJoin args (chars " ")
    let command := toolConfig.command
    let command := replaceAll command (chars "{input}") inputData
    let command := replaceAll command (chars "{auto_optimizations}") autoOptimizations
    let command := replaceAll command (chars "{args}") argsString
    let command := replaceAll command (chars "{output}") tempOutputFile
    let command := replaceAll command (chars "{wordlist}") wordlist
    some (fields command)

/-- Example catalog entry whose template substitutes `{input}` into an
`echo` command line. -/
def echoToolConfig : ToolConfig :=
  { mode := chars "single", command := chars "echo {input}", useStdout := true }

def echoCM : ConfigManager := ⟨[(chars "echo", echoToolConfig)]⟩

/-- Example catalog entry with a `{args}` placeholder between two words. -/
def spacedToolConfig : ToolConfig :=
  { mode := chars "single", command := chars "tool {args} end" }

def spacedCM : ConfigManager := ⟨[(chars "tool", spacedToolConfig)]⟩

/-! ## Arjun strategy auto-tuning (`ArjunStrategy.BuildCommand`) -/

/-- The output-redirection flags `ArjunStrategy.BuildCommand` strips. -/
def isOutputFlag (a : Str) : Bool :=
  a == chars "-o" || a == chars "-oJ" || a == chars "-oT" || a == chars "-oB"

/-- The argument loop of `ArjunStrategy.BuildCommand`: drops output flags
with their value and records which auto-tuning flags the user already
supplied.  Returns the kept arguments together with the four
`hasThreads/hasDelay/hasRateLimit/hasTimeout` booleans. -/
def arjunArgsLoop : List Str → Bool → Bool → Bool → Bool → Bool →
    List Str × Bool × Bool × Bool × Bool
  | [], _, t, d, r, T => ([], t, d, r, T)
  | a :: rest, skipNext, t, d, r, T =>
    if skipNext then arjunArgsLoop rest false t d r T
    else if isOutputFlag a then arjunArgsLoop rest true t d r T
    else
      let t' := t || (a == chars "-t" || a == chars "--threads")
      let d' := d || (a == chars "-d" || a == chars "--delay")
      let r' := r || (a == chars "--rate-limit")
      let T' := T || (a == chars "-T" || a == chars "--timeout")
      let res := arjunArgsLoop rest false t' d' r' T'
      (a :: res.1, res.2)

/-- Model of `ArjunStrategy.BuildCommand`: `arjun -i <input>`, the kept
user arguments, then one default pair per auto-tuning flag the user did
not supply. -/
def ArjunBuildCommand (inputData : Str) (args : List Str) : List Str :=
  let res := arjunArgsLoop args false false false false false
  chars "arjun" :: chars "-i" :: inputData :: res.1 ++
    (if !res.2.1 then [chars "-t", chars "10"] else []) ++
    (if !res.2.2.1 then [chars "-d", chars "0"] else []) ++
    (if !res.2.2.2.1 then [chars "--rate-limit", chars "50"] else []) ++
    (if !res.2.2.2.2 then [chars "-T", chars "5"] else [])

/-- User arguments that survive output-flag stripping. -/
def filterOutputArgs : List Str → List Str
  | [] => []
  | a :: rest =>
    if isOutputFlag a then filterOutputArgs (rest.drop 1)
    else a :: filterOutputArgs rest
termination_by args => args.length
decreasing_by
  · simp only [List.length_drop, List.length_cons]; omega
  · simp only [List.length_cons]; omega

/-- Whether the kept user arguments mention one of the two spellings of an
auto-tuning flag. -/
def hasFlagIn (short long : Str) : List Str → Bool
  | [] => false
  | a :: rest =>
    if isOutputFlag a then hasFlagIn short long (rest.drop 1)
    else (a == short || a == long) || hasFlagIn short long rest
termination_by args => args.length
decreasing_by
  · simp only [List.length_drop, List.length_cons]; omega
  · simp only [List.length_cons]; omega

/-- Example catalog entry with configured auto-tuning defaults
(`auto_optimizations = ["-t", "50"]`). -/
def httpxToolConfig : ToolConfig :=
  { mode := chars "multiple",
    command := chars "httpx -l {input} {auto_optimizations} {args} -o {output}",
    autoOptimizations := [chars "-t", chars "50"] }

def httpxCM : ConfigManager := ⟨[(chars "httpx", httpxToolConfig)]⟩

/-! ## Task fate after cancellation (runner.go: `runTasks` select,
`runTask` checks, `runTaskWithCommand` check) -/

/-- Control locations of one task goroutine up to process launch:
`atSelect` — the `select` in `runTasks` (cancel vs. admission slot);
`returned` — the goroutine returned through the cancel branch, with no
status write;
`checkA` — the first cancellation check at the top of `runTask`;
`assignRunning` — about to execute `task.Status = TaskRunning`;
`checkB` — the cancellation check before staging/build;
`checkC` — the cancellation check in `runTaskWithCommand` before
`cmd.Start()`;
`failedLoc` — `updateTaskStatus(_, TaskFailed)` ran and the goroutine
returned;
`launchedLoc` — `cmd.Start()` succeeded (an external process exists). -/
inductive RTLoc where
  | atSelect
  | returned
  | checkA
  | assignRunning
  | checkB
  | checkC
  | failedLoc
  | launchedLoc
deriving DecidableEq, Repr

/-- Observable state of one task goroutine together with the global
cancellation flag. -/
structure TaskRunState where
  loc : RTLoc
  status : TaskStatus
  launched : Bool
  cancelled : Bool
deriving DecidableEq, Repr

/-- Successor states of one task goroutine.  The cancellation token can be
triggered at any time by another task's failure or an interrupt (first
summand).  A Go `select` with a ready case never takes `default`, so once
`cancelChan` is closed every cancellation check deterministically fails
the task; the `runTasks` select keeps both branches because a free slot
and a closed channel can both be ready.  Staging or start-up errors
(chunk file, BuildCommand, pipes, `cmd.Start`) may also fail a task
before launch. -/
def nextStates (s : TaskRunState) : List TaskRunState :=
  (if s.cancelled = false then [{ s with cancelled := true }] else []) ++
  (match s.loc with
   | .atSelect =>
     { s with loc := .checkA } ::
       (if s.cancelled then [{ s with loc := .returned }] else [])
   | .returned => []
   | .checkA =>
     if s.cancelled then [{ s with loc := .failedLoc, status := taskFailed }]
     else [{ s with loc := .assignRunning }]
   | .assignRunning => [{ s with loc := .checkB, status := taskRunning }]
   | .checkB =>
     if s.cancelled then [{ s with loc := .failedLoc, status := taskFailed }]
     else [{ s with loc := .checkC },
       { s with loc := .failedLoc, status := taskFailed }]
   | .checkC =>
     if s.cancelled then [{ s with loc := .failedLoc, status := taskFailed }]
     else [{ s with loc := .launchedLoc, launched := true },
       { s with loc := .failedLoc, status := taskFailed }]
   | .failedLoc => []
   | .launchedLoc => [])

/-- One-step relation of the task goroutine model. -/
def TaskStep (a b : TaskRunState) : Prop := b ∈ nextStates a

end Bulker

/-! ## Basic lemmas about the string operations -/

theorem fieldsAux_sound (s : Str) :
    ∀ acc, (∀ c ∈ acc, unicodeIsSpace c = false) →
      ∀ w ∈ fieldsAux s acc, w ≠ [] ∧ ∀ c ∈ w, unicodeIsSpace c = false := by
  induction s with
  | nil =>
    intro acc hacc w hw
    by_cases h : acc = []
    · simp [fieldsAux, h] at hw
    · simp only [fieldsAux, if_neg h, List.mem_singleton] at hw
      subst hw
      refine ⟨by simpa using h, ?_⟩
      intro c hc
      exact hacc c (List.mem_reverse.mp hc)
  | cons c rest ih =>
    intro acc hacc w hw
    by_cases hs : unicodeIsSpace c
    · by_cases h : acc = []
      · simp only [fieldsAux, if_pos hs, if_pos h] at hw
        exact ih [] (by simp) w hw
      · simp only [fieldsAux, if_pos hs, if_neg h, List.mem_cons] at hw
        rcases hw with hw | hw
        · subst hw
          refine ⟨by simpa using h, ?_⟩
          intro d hd
          exact hacc d (List.mem_reverse.mp hd)
        · exact ih [] (by simp) w hw
    · simp only [fieldsAux, if_neg hs] at hw
      refine ih (c :: acc) ?_ w hw
      intro d hd
      rcases List.mem_cons.mp hd with h | h
      · subst h; simpa using hs
      · exact hacc d h

/-- Every token produced by `fields` is non-empty and free of white space. -/
theorem fields_sound (s : Str) :
    ∀ w ∈ fields s, w ≠ [] ∧ ∀ c ∈ w, unicodeIsSpace c = false :=
  fieldsAux_sound s [] (by simp)

theorem natCharsAux_eq_append (n : Nat) :
    ∀ acc, natCharsAux n acc = natChars n ++ acc := by
  induction n using Nat.strong_induction_on with
  | _ n ih =>
    intro acc
    by_cases h : n < 10
    · simp [natCharsAux, natChars, h]
    · have hpos : 0 < n := by omega
      have hdiv : n / 10 < n := Nat.div_lt_self hpos (by omega)
      rw [natCharsAux, if_neg h, ih (n / 10) hdiv]
      conv_rhs => rw [natChars, natCharsAux, if_neg h, ih (n / 10) hdiv]
      simp

theorem natChars_ne_nil (n : Nat) : natChars n ≠ [] := by
  rw [natChars, natCharsAux]
  by_cases h : n < 10
  · simp [h]
  · rw [if_neg h, natCharsAux_eq_append]
    simp

theorem mem_natChars (n : Nat) :
    ∀ c ∈ natChars n, ∃ d, d < 10 ∧ c = Nat.digitChar d := by
  induction n using Nat.strong_induction_on with
  | _ n ih =>
    intro c hc
    rw [natChars, natCharsAux] at hc
    by_cases h : n < 10
    · rw [if_pos h] at hc
      simp only [List.mem_singleton] at hc
      exact ⟨n, h, hc⟩
    · rw [if_neg h, natCharsAux_eq_append] at hc
      rcases List.mem_append.mp hc with h1 | h1
      · exact ih (n / 10) (Nat.div_lt_self (by omega) (by omega)) c h1
      · simp only [List.mem_singleton] at h1
        exact ⟨n % 10, Nat.mod_lt _ (by omega), h1⟩

theorem digitChar_isDigitVal {d : Nat} (h : d < 10) :
    digitVal? (Nat.digitChar d) = some d := by
  interval_cases d <;> rfl

theorem digitChar_ne_underscore {d : Nat} (h : d < 10) :
    Nat.digitChar d ≠ '_' := by
  interval_cases d <;> decide

theorem underscore_not_mem_natChars (n : Nat) : '_' ∉ natChars n := by
  intro hmem
  obtain ⟨d, hd, hc⟩ := mem_natChars n '_' hmem
  exact digitChar_ne_underscore hd hc.symm

theorem digitChar_ne_plus {d : Nat} (h : d < 10) : Nat.digitChar d ≠ '+' := by
  interval_cases d <;> decide

theorem digitChar_ne_minus {d : Nat} (h : d < 10) : Nat.digitChar d ≠ '-' := by
  interval_cases d <;> decide

theorem parseDigitsAux_append (xs ys : Str) :
    ∀ a, parseDigitsAux (xs ++ ys) a =
      match parseDigitsAux xs a with
      | some v => parseDigitsAux ys v
      | none => none := by
  induction xs with
  | nil => intro a; simp [parseDigitsAux]
  | cons c rest ih =>
    intro a
    simp only [List.cons_append, parseDigitsAux]
    cases digitVal? c with
    | none => simp
    | some d => simpa using ih (a * 10 + d)

theorem parseDigits_natChars (n : Nat) :
    parseDigitsAux (natChars n) 0 = some n := by
  induction n using Nat.strong_induction_on with
  | _ n ih =>
    rw [natChars, natCharsAux]
    by_cases h : n < 10
    · rw [if_pos h]
      simp [parseDigitsAux, digitChar_isDigitVal h]
    · rw [if_neg h, natCharsAux_eq_append, parseDigitsAux_append]
      rw [ih (n / 10) (Nat.div_lt_self (by omega) (by omega))]
      simp only [parseDigitsAux, digitChar_isDigitVal (Nat.mod_lt n (by omega))]
      have : n / 10 * 10 + n % 10 = n := by omega
      rw [this]

/-- On a decimal rendering of a non-negative value, `atoi` recovers it. -/
theorem atoi_natChars (n : Nat) : atoi (natChars n) = some (n : Int) := by
  obtain ⟨c, rest, hcr⟩ : ∃ c rest, natChars n = c :: rest := by
    cases h : natChars n with
    | nil => exact absurd h (natChars_ne_nil n)
    | cons c rest => exact ⟨c, rest, rfl⟩
  obtain ⟨d, hd, hc⟩ := mem_natChars n c (by rw [hcr]; simp)
  have hplus : c ≠ '+' := hc ▸ digitChar_ne_plus hd
  have hminus : c ≠ '-' := hc ▸ digitChar_ne_minus hd
  rw [hcr, atoi, if_neg hplus, if_neg hminus, ← hcr, parseDigits_natChars]
  rfl

namespace Bulker

open TaskStatus

/-! ## Round-trip between the payload encoding and `parseLineRange` -/

theorem rangeStr_eq_intercalate (s e : Nat) :
    rangeStr s e = ['_'].intercalate [chars "lines", natChars s, natChars e] := by
  simp [rangeStr, List.intercalate, chars]

theorem splitOn_rangeStr (s e : Nat) :
    (rangeStr s e).splitOn '_' = [chars "lines", natChars s, natChars e] := by
  rw [rangeStr_eq_intercalate]
  apply List.splitOn_intercalate
  · intro l hl
    simp only [List.mem_cons, List.not_mem_nil, or_false] at hl
    rcases hl with h | h | h
    · subst h; decide
    · subst h; exact underscore_not_mem_natChars s
    · subst h; exact underscore_not_mem_natChars e
  · simp

/-- Decoding is a left inverse of the payload encoding. -/
theorem parseLineRange_rangeStr (s e : Nat) :
    parseLineRange (rangeStr s e) = some ((s : Int), (e : Int)) := by
  rw [parseLineRange, splitOn_rangeStr]
  simp [atoi_natChars]

theorem multipleTasksAux_parse (total c : Nat) :
    ∀ start taskID,
      (multipleTasksAux total c start taskID).map
          (fun t => parseLineRange t.inputData) =
        (taskRangesAux total c start).map
          (fun p => some ((p.1 : Int), (p.2 : Int))) := by
  have key : ∀ d start taskID, total - start ≤ d →
      (multipleTasksAux total c start taskID).map
          (fun t => parseLineRange t.inputData) =
        (taskRangesAux total c start).map
          (fun p => some ((p.1 : Int), (p.2 : Int))) := by
    intro d
    induction d with
    | zero =>
      intro start taskID h
      rw [multipleTasksAux, taskRangesAux]
      have : ¬ start < total := by omega
      simp [this]
    | succ d ih =>
      intro start taskID h
      rw [multipleTasksAux, taskRangesAux]
      by_cases hlt : start < total
      · simp only [if_pos hlt, List.map_cons]
        rw [parseLineRange_rangeStr, ih (start + (c + 1)) (taskID + 1) (by omega)]
      · simp [hlt]
  intro start taskID
  exact key (total - start) start taskID (Nat.le_refl _)

theorem taskRangesAux_bounds (total c : Nat) :
    ∀ start, ∀ p ∈ taskRangesAux total c start,
      start ≤ p.1 ∧ p.1 ≤ p.2 ∧ p.2 < total := by
  have key : ∀ d start, total - start ≤ d →
      ∀ p ∈ taskRangesAux total c start,
        start ≤ p.1 ∧ p.1 ≤ p.2 ∧ p.2 < total := by
    intro d
    induction d with
    | zero =>
      intro start h p hp
      rw [taskRangesAux] at hp
      have : ¬ start < total := by omega
      simp [this] at hp
    | succ d ih =>
      intro start h p hp
      rw [taskRangesAux] at hp
      by_cases hlt : start < total
      · rw [if_pos hlt] at hp
        rcases List.mem_cons.mp hp with h1 | h1
        · subst h1
          refine ⟨Nat.le_refl _, ?_, ?_⟩ <;> simp <;> omega
        · have := ih (start + (c + 1)) (by omega) p h1
          exact ⟨by omega, this.2.1, this.2.2⟩
      · simp [hlt] at hp
  intro start
  exact key (total - start) start (Nat.le_refl _)

theorem taskRangesAux_cover (total c : Nat) :
    ∀ start j, start ≤ j → j < total →
      (taskRangesAux total c start).countP
        (fun p => decide (p.1 ≤ j ∧ j ≤ p.2)) = 1 := by
  have key : ∀ d start j, total - start ≤ d → start ≤ j → j < total →
      (taskRangesAux total c start).countP
        (fun p => decide (p.1 ≤ j ∧ j ≤ p.2)) = 1 := by
    intro d
    induction d with
    | zero => intro start j h hj1 hj2; omega
    | succ d ih =>
      intro start j h hj1 hj2
      have hlt : start < total := by omega
      rw [taskRangesAux, if_pos hlt, List.countP_cons]
      by_cases hin : j ≤ min (start + (c + 1)) total - 1
      · have hrest : (taskRangesAux total c (start + (c + 1))).countP
            (fun p => decide (p.1 ≤ j ∧ j ≤ p.2)) = 0 := by
          rw [List.countP_eq_zero]
          intro p hp
          have hb := taskRangesAux_bounds total c (start + (c + 1)) p hp
          simp only [decide_eq_true_eq]
          omega
        simp only [hrest, Nat.zero_add]
        simp [hj1, hin]
      · have hhead : (decide (start ≤ j ∧ j ≤ min (start + (c + 1)) total - 1)) = false := by
          simp only [decide_eq_false_iff_not]
          omega
        have hj1' : start + (c + 1) ≤ j := by omega
        rw [ih (start + (c + 1)) j (by omega) hj1' hj2]
        simp [hhead]
  intro start j hj1 hj2
  exact key (total - start) start j (Nat.le_refl _) hj1 hj2

theorem taskRangesAux_chain (total c : Nat) :
    ∀ start, List.Chain' (fun p q : Nat × Nat => q.1 = p.2 + 1)
      (taskRangesAux total c start) := by
  have key : ∀ d start, total - start ≤ d →
      List.Chain' (fun p q : Nat × Nat => q.1 = p.2 + 1)
        (taskRangesAux total c start) := by
    intro d
    induction d with
    | zero =>
      intro start h
      rw [taskRangesAux]
      have : ¬ start < total := by omega
      simp [this]
    | succ d ih =>
      intro start h
      rw [taskRangesAux]
      by_cases hlt : start < total
      · rw [if_pos hlt]
        rw [List.chain'_cons']
        refine ⟨?_, ih (start + (c + 1)) (by omega)⟩
        intro q hq
        rw [taskRangesAux] at hq
        by_cases hlt2 : start + (c + 1) < total
        · rw [if_pos hlt2] at hq
          simp only [List.head?_cons, Option.mem_some_iff] at hq
          subst hq
          simp
          omega
        · simp [hlt2] at hq
      · simp [hlt]
  intro start
  exact key (total - start) start (Nat.le_refl _)

theorem taskRangesAux_sizes (total c : Nat) :
    ∀ start, ∀ p ∈ taskRangesAux total c start, p.2 + 1 - p.1 ≤ c + 1 := by
  intro start p hp
  have hb := taskRangesAux_bounds total c start p hp
  have key : ∀ d s, total - s ≤ d → ∀ q ∈ taskRangesAux total c s,
      q.2 + 1 - q.1 ≤ c + 1 := by
    intro d
    induction d with
    | zero =>
      intro s h q hq
      rw [taskRangesAux] at hq
      have : ¬ s < total := by omega
      simp [this] at hq
    | succ d ih =>
      intro s h q hq
      rw [taskRangesAux] at hq
      by_cases hlt : s < total
      · rw [if_pos hlt] at hq
        rcases List.mem_cons.mp hq with h1 | h1
        · subst h1; simp; omega
        · exact ih (s + (c + 1)) (by omega) q h1
      · simp [hlt] at hq
  exact key (total - start) start (Nat.le_refl _) p hp

theorem taskRangesAux_full_sizes (total c : Nat) :
    ∀ start, ∀ p ∈ (taskRangesAux total c start).dropLast,
      p.2 + 1 - p.1 = c + 1 := by
  have key : ∀ d start, total - start ≤ d →
      ∀ p ∈ (taskRangesAux total c start).dropLast, p.2 + 1 - p.1 = c + 1 := by
    intro d
    induction d with
    | zero =>
      intro start h p hp
      rw [taskRangesAux] at hp
      have : ¬ start < total := by omega
      simp [this] at hp
    | succ d ih =>
      intro start h p hp
      rw [taskRangesAux] at hp
      by_cases hlt : start < total
      · rw [if_pos hlt] at hp
        cases hrest : taskRangesAux total c (start + (c + 1)) with
        | nil => rw [hrest] at hp; simp at hp
        | cons q qs =>
          rw [hrest] at hp
          rw [List.dropLast_cons₂] at hp
          rcases List.mem_cons.mp hp with h1 | h1
          · subst h1
            have hlt2 : start + (c + 1) < total := by
              by_contra hge
              rw [taskRangesAux, if_neg hge] at hrest
              exact List.noConfusion hrest
            simp
            omega
          · have := ih (start + (c + 1)) (by omega)
            rw [hrest] at this
            exact this p h1
      · simp [hlt] at hp
  intro start
  exact key (total - start) start (Nat.le_refl _)

theorem taskRangesAux_length (total c : Nat) :
    ∀ start, start < total →
      (taskRangesAux total c start).length =
        (total - start + c) / (c + 1) := by
  have key : ∀ d start, total - start ≤ d → start < total →
      (taskRangesAux total c start).length =
        (total - start + c) / (c + 1) := by
    intro d
    induction d with
    | zero => intro start h hlt; omega
    | succ d ih =>
      intro start h hlt
      rw [taskRangesAux, if_pos hlt]
      set m := total - start with hm
      have hm1 : 1 ≤ m := by omega
      have hsplit : m + c = (c + 1) + (m - 1) := by omega
      have hdiv : (m + c) / (c + 1) = (m - 1) / (c + 1) + 1 := by
        rw [hsplit, Nat.add_comm (c + 1) (m - 1), Nat.add_div_right _ (by omega)]
      by_cases hend : start + (c + 1) < total
      · rw [List.length_cons, ih (start + (c + 1)) (by omega) hend]
        have heq : total - (start + (c + 1)) + c = m - 1 := by omega
        rw [heq, hdiv]
      · have hnil : taskRangesAux total c (start + (c + 1)) = [] := by
          rw [taskRangesAux, if_neg hend]
        rw [hnil]
        have hsmall : m - 1 < c + 1 := by omega
        rw [List.length_cons, List.length_nil, hdiv, Nat.div_eq_of_lt hsmall]
  intro start hlt
  exact key (total - start) start (Nat.le_refl _) hlt

/-- The computed chunk size is the ceiling `(n + W - 1) / W` for non-empty
input and a positive worker count. -/
theorem chunkSizeOf_eq_ceil {n W : Nat} (hn : 1 ≤ n) (hW : 1 ≤ W) :
    chunkSizeOf n W = (n + W - 1) / W := by
  have h1 : n + W - 1 = n + (W - 1) := by omega
  rw [h1, Nat.add_div (show 0 < W by omega)]
  rw [Nat.div_eq_of_lt (show W - 1 < W by omega),
    Nat.mod_eq_of_lt (show W - 1 < W by omega)]
  have hmod : n % W < W := Nat.mod_lt n (by omega)
  by_cases hr : n % W = 0
  · have hq : 0 < n / W := by
      refine Nat.div_pos ?_ (by omega)
      by_contra hlt
      push_neg at hlt
      rw [Nat.mod_eq_of_lt hlt] at hr
      omega
    simp only [chunkSizeOf, hr]
    generalize n / W = q at hq ⊢
    split_ifs <;> omega
  · simp only [chunkSizeOf]
    generalize n / W = q
    generalize n % W = r at hr ⊢
    split_ifs <;> omega

theorem chunkSizeOf_pos {n W : Nat} : 1 ≤ chunkSizeOf n W := by
  simp only [chunkSizeOf]
  split_ifs <;> omega

/-- The input length never exceeds worker count times the chunk size. -/
theorem le_workers_mul_chunkSize {n W : Nat} (hn : 1 ≤ n) (hW : 1 ≤ W) :
    n ≤ W * chunkSizeOf n W := by
  rw [chunkSizeOf_eq_ceil hn hW]
  have h1 := Nat.div_add_mod (n + W - 1) W
  have h2 : (n + W - 1) % W < W := Nat.mod_lt _ (by omega)
  generalize W * ((n + W - 1) / W) = X at h1 ⊢
  omega

theorem singleTasksAux_length : ∀ i ls, (singleTasksAux i ls).length = ls.length := by
  intro i ls
  induction ls generalizing i with
  | nil => rfl
  | cons l rest ih => simp [singleTasksAux, ih]

theorem singleTasksAux_map_inputData :
    ∀ i ls, (singleTasksAux i ls).map (fun t => t.inputData) = ls := by
  intro i ls
  induction ls generalizing i with
  | nil => rfl
  | cons l rest ih => simp [singleTasksAux, ih]

theorem singleTasksAux_map_id :
    ∀ i ls, (singleTasksAux i ls).map (fun t => t.id) = List.range' i ls.length := by
  intro i ls
  induction ls generalizing i with
  | nil => rfl
  | cons l rest ih => simp [singleTasksAux, ih, List.range']

/-- C1: for every non-empty filtered input and worker count `W ≥ 1`,
multiple-mode task creation uses chunk size `ceil(n / W)` (with minimum 1);
the encoded line ranges of the produced tasks decode successfully, are
contiguous (each range starts right after its predecessor ends), in
ascending order and non-overlapping, cover every filtered index
`0 .. n-1` exactly once (`countP = 1`), stay within bounds, start at
index 0, and all have exactly the chunk size except possibly the last,
which is never larger. -/
theorem multiple_mode_partition (lines : List Str) (W : Nat)
    (hW : 1 ≤ W) (hne : lines ≠ []) :
    ∃ rs : List (Nat × Nat),
      (createTasks (chars "multiple") lines W).map
          (fun t => parseLineRange t.inputData) =
        rs.map (fun p => some ((p.1 : Int), (p.2 : Int))) ∧
      chunkSizeOf lines.length W = (lines.length + W - 1) / W ∧
      1 ≤ chunkSizeOf lines.length W ∧
      List.Chain' (fun p q => q.1 = p.2 + 1) rs ∧
      (∀ j, j < lines.length →
        rs.countP (fun p => decide (p.1 ≤ j ∧ j ≤ p.2)) = 1) ∧
      (∀ p ∈ rs, p.1 ≤ p.2 ∧ p.2 < lines.length) ∧
      rs.head? = some (0, min (chunkSizeOf lines.length W) lines.length - 1) ∧
      (∀ p ∈ rs, p.2 + 1 - p.1 ≤ chunkSizeOf lines.length W) ∧
      (∀ p ∈ rs.dropLast, p.2 + 1 - p.1 = chunkSizeOf lines.length W) := by
  have hn : 1 ≤ lines.length := by
    cases lines with
    | nil => exact absurd rfl hne
    | cons a l => simp
  have hcs1 : 1 ≤ chunkSizeOf lines.length W := chunkSizeOf_pos
  have hc1 : chunkSizeOf lines.length W - 1 + 1 = chunkSizeOf lines.length W := by
    omega
  refine ⟨taskRangesAux lines.length (chunkSizeOf lines.length W - 1) 0,
    ?_, chunkSizeOf_eq_ceil hn hW, hcs1, ?_, ?_, ?_, ?_, ?_, ?_⟩
  · have hniz : ¬ lines.length = 0 := by omega
    simp only [createTasks, if_neg hniz, if_pos rfl]
    exact multipleTasksAux_parse lines.length (chunkSizeOf lines.length W - 1) 0 0
  · exact taskRangesAux_chain _ _ 0
  · intro j hj
    exact taskRangesAux_cover _ _ 0 j (Nat.zero_le _) hj
  · intro p hp
    have := taskRangesAux_bounds _ _ 0 p hp
    exact ⟨this.2.1, this.2.2⟩
  · rw [taskRangesAux, if_pos (by omega : 0 < lines.length)]
    rw [List.head?_cons]
    rw [hc1, Nat.zero_add]
  · intro p hp
    have := taskRangesAux_sizes _ _ 0 p hp
    omega
  · intro p hp
    have := taskRangesAux_full_sizes _ _ 0 p hp
    omega

/-- Witness for C1 at the spec scenario: 10 lines, 4 workers. -/
theorem multiple_mode_partition_witness :
    1 ≤ 4 ∧ List.replicate 10 (chars "a") ≠ [] ∧
    (∃ rs : List (Nat × Nat),
      (createTasks (chars "multiple") (List.replicate 10 (chars "a")) 4).map
          (fun t => parseLineRange t.inputData) =
        rs.map (fun p => some ((p.1 : Int), (p.2 : Int))) ∧
      chunkSizeOf (List.replicate 10 (chars "a")).length 4 =
        ((List.replicate 10 (chars "a")).length + 4 - 1) / 4 ∧
      1 ≤ chunkSizeOf (List.replicate 10 (chars "a")).length 4 ∧
      List.Chain' (fun p q => q.1 = p.2 + 1) rs ∧
      (∀ j, j < (List.replicate 10 (chars "a")).length →
        rs.countP (fun p => decide (p.1 ≤ j ∧ j ≤ p.2)) = 1) ∧
      (∀ p ∈ rs, p.1 ≤ p.2 ∧ p.2 < (List.replicate 10 (chars "a")).length) ∧
      rs.head? = some (0, min (chunkSizeOf (List.replicate 10 (chars "a")).length 4)
        (List.replicate 10 (chars "a")).length - 1) ∧
      (∀ p ∈ rs, p.2 + 1 - p.1 ≤ chunkSizeOf (List.replicate 10 (chars "a")).length 4) ∧
      (∀ p ∈ rs.dropLast,
        p.2 + 1 - p.1 = chunkSizeOf (List.replicate 10 (chars "a")).length 4)) :=
  ⟨by norm_num, by simp,
    multiple_mode_partition (List.replicate 10 (chars "a")) 4 (by norm_num) (by simp)⟩

/-- C2: single mode produces exactly one task per filtered line, in the
original order with ids `0, 1, ...`; multiple mode produces
`ceil(totalLines / chunkSize)` tasks, and that count never exceeds `W`. -/
theorem createTasks_counts (lines : List Str) (W : Nat) (hW : 1 ≤ W) :
    (createTasks (chars "single") lines W).length = lines.length ∧
    (createTasks (chars "single") lines W).map (fun t => t.inputData) = lines ∧
    (createTasks (chars "single") lines W).map (fun t => t.id) =
      List.range lines.length ∧
    (createTasks (chars "multiple") lines W).length =
      (lines.length + chunkSizeOf lines.length W - 1) /
        chunkSizeOf lines.length W ∧
    (createTasks (chars "multiple") lines W).length ≤ W := by
  have hmode : ¬ (chars "single" = chars "multiple") := by decide
  have hcs1 : 1 ≤ chunkSizeOf lines.length W := chunkSizeOf_pos
  by_cases h0 : lines.length = 0
  · have hnil : lines = [] := List.length_eq_zero.mp h0
    subst hnil
    refine ⟨rfl, rfl, rfl, ?_, by simp [createTasks]⟩
    simp [createTasks, chunkSizeOf]
  · have hsingle :
        createTasks (chars "single") lines W = singleTasksAux 0 lines := by
      simp only [createTasks, if_neg h0, if_neg hmode, if_pos rfl, if_true]
    have hmul : createTasks (chars "multiple") lines W =
        multipleTasksAux lines.length (chunkSizeOf lines.length W - 1) 0 0 := by
      simp only [createTasks, if_neg h0, if_pos rfl, if_true]
    have hlen : (createTasks (chars "multiple") lines W).length =
        (taskRangesAux lines.length (chunkSizeOf lines.length W - 1) 0).length := by
      have hmap := multipleTasksAux_parse lines.length
        (chunkSizeOf lines.length W - 1) 0 0
      have := congrArg List.length hmap
      simpa [hmul] using this
    refine ⟨by rw [hsingle, singleTasksAux_length],
      by rw [hsingle, singleTasksAux_map_inputData],
      ?_, ?_, ?_⟩
    · rw [hsingle, singleTasksAux_map_id, List.range_eq_range']
    · rw [hlen, taskRangesAux_length lines.length _ 0 (by omega)]
      have : chunkSizeOf lines.length W - 1 + 1 = chunkSizeOf lines.length W := by
        omega
      rw [Nat.sub_zero, this]
      congr 1
      omega
    · rw [hlen, taskRangesAux_length lines.length _ 0 (by omega)]
      have hc1 : chunkSizeOf lines.length W - 1 + 1 = chunkSizeOf lines.length W := by
        omega
      rw [Nat.sub_zero, hc1]
      rw [Nat.div_le_iff_le_mul_add_pred (by omega : 0 < chunkSizeOf lines.length W)]
      have hle := le_workers_mul_chunkSize (by omega : 1 ≤ lines.length) hW
      have hcomm : W * chunkSizeOf lines.length W =
          chunkSizeOf lines.length W * W := Nat.mul_comm _ _
      generalize chunkSizeOf lines.length W * W = Y at hcomm ⊢
      generalize W * chunkSizeOf lines.length W = X at hle hcomm
      omega

/-- Witness for C2 at 10 input lines and 4 workers. -/
theorem createTasks_counts_witness :
    1 ≤ 4 ∧
    ((createTasks (chars "single") (List.replicate 10 (chars "a")) 4).length =
        (List.replicate 10 (chars "a")).length ∧
      (createTasks (chars "single") (List.replicate 10 (chars "a")) 4).map
          (fun t => t.inputData) = List.replicate 10 (chars "a") ∧
      (createTasks (chars "single") (List.replicate 10 (chars "a")) 4).map
          (fun t => t.id) = List.range (List.replicate 10 (chars "a")).length ∧
      (createTasks (chars "multiple") (List.replicate 10 (chars "a")) 4).length =
        ((List.replicate 10 (chars "a")).length +
            chunkSizeOf (List.replicate 10 (chars "a")).length 4 - 1) /
          chunkSizeOf (List.replicate 10 (chars "a")).length 4 ∧
      (createTasks (chars "multiple") (List.replicate 10 (chars "a")) 4).length ≤ 4) :=
  ⟨by norm_num, createTasks_counts (List.replicate 10 (chars "a")) 4 (by norm_num)⟩

/-- C8: the in-memory input buffer keeps exactly the non-blank (non-empty)
lines in their original order: it is the filter of the input by
non-emptiness, a sublist of the input, contains no blank line, and multiple
mode partitioning indices decode to positions inside the filtered
sequence. -/
theorem readInputLines_spec (input : List Str) :
    readInputLines input = input.filter (fun l => decide (l ≠ [])) ∧
    List.Sublist (readInputLines input) input ∧
    (∀ l ∈ readInputLines input, l ≠ []) ∧
    (∀ l ∈ input, l ≠ [] → l ∈ readInputLines input) ∧
    (∀ W t, t ∈ createTasks (chars "multiple") (readInputLines input) W →
      ∀ s e : Int, parseLineRange t.inputData = some (s, e) →
        0 ≤ s ∧ s ≤ e ∧ e < (readInputLines input).length) := by
  have hfilter : readInputLines input = input.filter (fun l => decide (l ≠ [])) := by
    induction input with
    | nil => rfl
    | cons l rest ih =>
      by_cases hl : l = []
      · subst hl; simp [readInputLines, ih]
      · simp [readInputLines, hl, ih]
  refine ⟨hfilter, ?_, ?_, ?_, ?_⟩
  · rw [hfilter]; exact List.filter_sublist _
  · intro l hl
    rw [hfilter] at hl
    simpa using (List.mem_filter.mp hl).2
  · intro l hl hne
    rw [hfilter]
    exact List.mem_filter.mpr ⟨hl, by simpa using hne⟩
  · intro W t ht s e hparse
    set flt := readInputLines input with hflt
    by_cases h0 : flt.length = 0
    · rw [createTasks, if_pos h0] at ht
      simp at ht
    · by_cases hW0 : flt.length = 0
      · omega
      · rw [createTasks, if_neg h0, if_pos rfl] at ht
        have hmap := multipleTasksAux_parse flt.length
          (chunkSizeOf flt.length W - 1) 0 0
        have hmem : parseLineRange t.inputData ∈
            (multipleTasksAux flt.length (chunkSizeOf flt.length W - 1) 0 0).map
              (fun t => parseLineRange t.inputData) :=
          List.mem_map_of_mem _ ht
        rw [hmap] at hmem
        obtain ⟨p, hp, heq⟩ := List.mem_map.mp hmem
        have hb := taskRangesAux_bounds flt.length
          (chunkSizeOf flt.length W - 1) 0 p hp
        rw [hparse] at heq
        have h1 : s = (p.1 : Int) := by
          have := congrArg (fun o => Option.map Prod.fst o) heq
          simpa using this.symm
        have h2 : e = (p.2 : Int) := by
          have := congrArg (fun o => Option.map Prod.snd o) heq
          simpa using this.symm
        subst h1; subst h2
        refine ⟨by positivity, by exact_mod_cast hb.2.1, by exact_mod_cast hb.2.2⟩

/-- Witness for C8 on a concrete input containing blank lines. -/
theorem readInputLines_spec_witness :
    readInputLines [chars "x", [], chars "y"] =
        [chars "x", [], chars "y"].filter (fun l => decide (l ≠ [])) ∧
    List.Sublist (readInputLines [chars "x", [], chars "y"])
      [chars "x", [], chars "y"] ∧
    (∀ l ∈ readInputLines [chars "x", [], chars "y"], l ≠ []) ∧
    (∀ l ∈ [chars "x", [], chars "y"], l ≠ [] →
      l ∈ readInputLines [chars "x", [], chars "y"]) ∧
    (∀ W t, t ∈ createTasks (chars "multiple")
        (readInputLines [chars "x", [], chars "y"]) W →
      ∀ s e : Int, parseLineRange t.inputData = some (s, e) →
        0 ≤ s ∧ s ≤ e ∧ e < (readInputLines [chars "x", [], chars "y"]).length) :=
  readInputLines_spec [chars "x", [], chars "y"]

theorem iterCancel_triggered (n : Nat) :
    iterCancel n ⟨true, true⟩ = some ⟨true, true⟩ := by
  induction n with
  | zero => rfl
  | succ n ih => simp [iterCancel, cancelTasks, ih]

/-- C7: the cancellation token is one-shot and idempotent.  Any positive
number of trigger calls succeeds (no error/panic), yields exactly the state
of a single trigger, and the triggered state is absorbing (the token never
resets). -/
theorem cancelTasks_one_shot :
    (∀ n, iterCancel (n + 1) initialCancelState = some ⟨true, true⟩) ∧
    (∀ n, iterCancel (n + 1) initialCancelState =
      iterCancel 1 initialCancelState) ∧
    (∀ n, iterCancel n ⟨true, true⟩ = some ⟨true, true⟩) ∧
    (∀ s, s.onceDone = s.chanClosed → (cancelTasks s).isSome = true) := by
  have h1 : ∀ n, iterCancel (n + 1) initialCancelState = some ⟨true, true⟩ := by
    intro n
    have : cancelTasks initialCancelState = some ⟨true, true⟩ := rfl
    simp [iterCancel, this, iterCancel_triggered]
  refine ⟨h1, ?_, iterCancel_triggered, ?_⟩
  · intro n
    rw [h1 n, h1 0]
  · intro s hinv
    rcases s with ⟨o, c⟩
    cases o <;> cases c <;> simp_all [cancelTasks, closeChan]

/-- Witness for C7: three triggers behave like one on the fresh token. -/
theorem cancelTasks_one_shot_witness :
    iterCancel 3 initialCancelState = some ⟨true, true⟩ ∧
    iterCancel 3 initialCancelState = iterCancel 1 initialCancelState ∧
    iterCancel 2 ⟨true, true⟩ = some ⟨true, true⟩ ∧
    (initialCancelState.onceDone = initialCancelState.chanClosed →
      (cancelTasks initialCancelState).isSome = true) :=
  ⟨cancelTasks_one_shot.1 2, cancelTasks_one_shot.2.1 2,
    cancelTasks_one_shot.2.2.1 2, fun h => cancelTasks_one_shot.2.2.2 _ h⟩

/-- C9: along every control-flow shape of a run, a task's status only moves
forward (strictly increasing rank, so no return to `Pending`/`Running` from
a terminal state), and `EndTime` is written exactly once — at the
transition into `Completed` or `Failed` — and never otherwise; its final
value is the instant of that terminal transition. -/
theorem task_status_monotone (p : RunPath) (t1 t2 : Nat) (t : Task)
    (hs : t.status = taskPending) (he : t.endTime = none) :
    List.Chain' (fun a b => statusRank a < statusRank b)
      (statusTrace t (runPathWrites p t1 t2)) ∧
    countTerminalWrites (runPathWrites p t1 t2) ≤ 1 ∧
    (((applyWrites t (runPathWrites p t1 t2)).status = taskCompleted ∨
        (applyWrites t (runPathWrites p t1 t2)).status = taskFailed) ↔
      countTerminalWrites (runPathWrites p t1 t2) = 1) ∧
    ((applyWrites t (runPathWrites p t1 t2)).endTime ≠ none ↔
      countTerminalWrites (runPathWrites p t1 t2) = 1) ∧
    ((applyWrites t (runPathWrites p t1 t2)).endTime = none ∨
      (applyWrites t (runPathWrites p t1 t2)).endTime =
        some (if p = .cancelledBeforeStart then t1 else t2)) := by
  cases p <;>
    simp [runPathWrites, statusTrace, applyWrites, applyWrite,
      updateTaskStatus, countTerminalWrites, statusRank, hs, he,
      List.scanl, List.Chain']

/-- Witness for C9 on the completed path of a freshly created task. -/
theorem task_status_monotone_witness :
    (freshTask.status = taskPending ∧ freshTask.endTime = none) ∧
    List.Chain' (fun a b => statusRank a < statusRank b)
      (statusTrace freshTask (runPathWrites .ranThenCompleted 3 7)) ∧
    countTerminalWrites (runPathWrites .ranThenCompleted 3 7) ≤ 1 := by
  have h := task_status_monotone .ranThenCompleted 3 7 freshTask rfl rfl
  exact ⟨⟨rfl, rfl⟩, h.1, h.2.1⟩

theorem head?_dropWhile_not {α : Type} (p : α → Bool) (l : List α) (c : α)
    (h : (l.dropWhile p).head? = some c) : p c = false := by
  induction l with
  | nil => simp [List.dropWhile] at h
  | cons a rest ih =>
    rw [List.dropWhile_cons] at h
    by_cases hp : p a
    · rw [if_pos hp] at h
      exact ih h
    · rw [if_neg hp] at h
      simp only [List.head?_cons, Option.some_inj] at h
      subst h
      simpa using hp

theorem getLast?_dropWhile {α : Type} (p : α → Bool) (l : List α)
    (h : l.dropWhile p ≠ []) : (l.dropWhile p).getLast? = l.getLast? := by
  induction l with
  | nil => simp [List.dropWhile] at h
  | cons a rest ih =>
    rw [List.dropWhile_cons]
    by_cases hp : p a
    · rw [List.dropWhile_cons, if_pos hp] at h
      rw [if_pos hp, ih h]
      cases rest with
      | nil => simp [List.dropWhile] at h
      | cons b l => simp
    · rw [if_neg hp]

/-- `goTrim` removes a prefix and a suffix made of cutset characters. -/
theorem goTrim_decomp (s cutset : Str) :
    ∃ pre suf, s = pre ++ goTrim s cutset ++ suf ∧
      (∀ c ∈ pre, c ∈ cutset) ∧ (∀ c ∈ suf, c ∈ cutset) := by
  refine ⟨s.takeWhile (· ∈ cutset),
    ((s.dropWhile (· ∈ cutset)).reverse.takeWhile (· ∈ cutset)).reverse,
    ?_, ?_, ?_⟩
  · conv_lhs => rw [← List.takeWhile_append_dropWhile (p := (· ∈ cutset)) (l := s)]
    rw [goTrim, List.append_assoc]
    congr 1
    conv_lhs => rw [← List.reverse_reverse (s.dropWhile (· ∈ cutset))]
    conv_lhs =>
      rw [← List.takeWhile_append_dropWhile (p := (· ∈ cutset))
        (l := (s.dropWhile (· ∈ cutset)).reverse)]
    rw [List.reverse_append]
  · intro c hc
    simpa using List.mem_takeWhile_imp hc
  · intro c hc
    rw [List.mem_reverse] at hc
    simpa using List.mem_takeWhile_imp hc

/-- The trimmed result neither starts nor ends with a cutset character. -/
theorem goTrim_boundaries (s cutset : Str) :
    (∀ c, (goTrim s cutset).head? = some c → c ∉ cutset) ∧
    (∀ c, (goTrim s cutset).getLast? = some c → c ∉ cutset) := by
  constructor
  · intro c hc
    rw [goTrim, List.head?_reverse] at hc
    by_cases hnil : (s.dropWhile (· ∈ cutset)).reverse.dropWhile (· ∈ cutset) = []
    · rw [hnil] at hc
      simp at hc
    · rw [getLast?_dropWhile _ _ hnil, List.getLast?_reverse] at hc
      have := head?_dropWhile_not (· ∈ cutset) s c hc
      simpa using this
  · intro c hc
    rw [goTrim, List.getLast?_reverse] at hc
    have := head?_dropWhile_not (· ∈ cutset)
      (s.dropWhile (· ∈ cutset)).reverse c hc
    simpa using this

/-- C4 counterexample: with no declared header and temp-file content
`"a\x00b"`, the cleanup writes the NUL byte through unchanged — embedded
NUL bytes are not removed (only leading/trailing ones are), contradicting
the claim's transformation. -/
theorem cleanupFunc_embedded_nul_counterexample :
    (cleanupFunc false [] (some (chars "a\x00b"))).written = chars "a\x00b" ∧
    '\x00' ∈ (cleanupFunc false [] (some (chars "a\x00b"))).written ∧
    (cleanupFunc false [] (some (chars "a\x00b"))).written ≠
      cleanupContentClaim [] (chars "a\x00b") := by
  refine ⟨?_, ?_, ?_⟩ <;> decide

/-- C4 amended: for a tool with `usesStdout = false`, the cleanup splices
into the Output Sink the temp file's content with a leading line that
`TrimSpace`-matches the declared header removed and with leading and
trailing (not embedded) NUL bytes removed, and removes the temp file:
the written content is the header-stripped content minus a NUL-only
prefix and suffix, and itself neither starts nor ends with NUL; a
declared header that matches the first line is dropped together with its
newline; with no declared header the content passes through the header
step unchanged. -/
theorem cleanupFunc_spec (header content : Str) :
    (∃ pre suf,
      headerTrimmed header content =
        pre ++ (cleanupFunc false header (some content)).written ++ suf ∧
      (∀ c ∈ pre, c = '\x00') ∧ (∀ c ∈ suf, c = '\x00')) ∧
    (∀ c, (cleanupFunc false header (some content)).written.head? = some c →
      c ≠ '\x00') ∧
    (∀ c, (cleanupFunc false header (some content)).written.getLast? = some c →
      c ≠ '\x00') ∧
    (cleanupFunc false header (some content)).tempRemoved = true ∧
    (∀ line rest, header ≠ [] → '\n' ∉ line → trimSpace line = header →
      headerTrimmed header (line ++ '\n' :: rest) = rest) ∧
    (header = [] → headerTrimmed header content = content) := by
  refine ⟨?_, ?_, ?_, rfl, ?_, ?_⟩
  · obtain ⟨pre, suf, heq, hpre, hsuf⟩ :=
      goTrim_decomp (headerTrimmed header content) (chars "\x00")
    refine ⟨pre, suf, ?_, ?_, ?_⟩
    · simpa [cleanupFunc, cleanupContent] using heq
    · intro c hc
      have := hpre c hc
      simpa [chars] using this
    · intro c hc
      have := hsuf c hc
      simpa [chars] using this
  · intro c hc
    have := (goTrim_boundaries (headerTrimmed header content) (chars "\x00")).1 c
      (by simpa [cleanupFunc, cleanupContent] using hc)
    simpa [chars] using this
  · intro c hc
    have := (goTrim_boundaries (headerTrimmed header content) (chars "\x00")).2 c
      (by simpa [cleanupFunc, cleanupContent] using hc)
    simpa [chars] using this
  · intro line rest hheader hnl htrim
    rw [headerTrimmed]
    have hsplit : (line ++ '\n' :: rest).splitOn '\n' =
        line :: rest.splitOn '\n' := by
      show List.splitOnP (fun x => x == '\n') (line ++ '\n' :: rest) =
        line :: List.splitOnP (fun x => x == '\n') rest
      refine List.splitOnP_first _ line ?_ '\n' (by simp) rest
      intro x hx h'
      simp only [beq_iff_eq] at h'
      subst h'
      exact hnl hx
    rw [hsplit]
    have hcond : 0 < (line :: rest.splitOn '\n').length ∧ header ≠ [] ∧
        trimSpace ((line :: rest.splitOn '\n').headD []) = header := by
      refine ⟨by simp, hheader, by simpa using htrim⟩
    rw [if_pos hcond]
    show goJoin (rest.splitOn '\n') (chars "\n") = rest
    show List.intercalate ['\n'] (rest.splitOn '\n') = rest
    exact List.intercalate_splitOn rest '\n'
  · intro hheader
    rw [headerTrimmed, if_neg]
    intro hcond
    exact hcond.2.1 hheader

/-- Witness for C4 amended: a concrete run with header `"h"` and content
`"h\nx"` followed by stray NULs. -/
theorem cleanupFunc_spec_witness :
    (∃ pre suf,
      headerTrimmed (chars "h") (chars "h\nx") =
        pre ++ (cleanupFunc false (chars "h") (some (chars "h\nx"))).written
          ++ suf ∧
      (∀ c ∈ pre, c = '\x00') ∧ (∀ c ∈ suf, c = '\x00')) ∧
    (∀ c, (cleanupFunc false (chars "h")
        (some (chars "h\nx"))).written.head? = some c → c ≠ '\x00') ∧
    (∀ c, (cleanupFunc false (chars "h")
        (some (chars "h\nx"))).written.getLast? = some c → c ≠ '\x00') ∧
    (cleanupFunc false (chars "h") (some (chars "h\nx"))).tempRemoved = true ∧
    (∀ line rest, chars "h" ≠ [] → '\n' ∉ line →
      trimSpace line = chars "h" →
      headerTrimmed (chars "h") (line ++ '\n' :: rest) = rest) ∧
    (chars "h" = [] → headerTrimmed (chars "h") (chars "h\nx") = chars "h\nx") :=
  cleanupFunc_spec (chars "h") (chars "h\nx")

/-- The backup path is strictly longer than the output path (one extra
`_` plus the timestamp), hence never equal to it. -/
theorem backupPath_ne (outputPath timestamp : Str) :
    backupPath outputPath timestamp ≠ outputPath := by
  intro h
  have hlen := congrArg List.length h
  rw [backupPath, trimSuffix] at hlen
  by_cases hsuf : endsWith (filepathExt outputPath) outputPath
  · rw [if_pos hsuf] at hlen
    simp only [List.length_append, List.length_take, chars] at hlen
    simp at hlen
    omega
  · rw [if_neg hsuf] at hlen
    simp only [List.length_append, chars] at hlen
    simp at hlen
    omega

/-- C6: a pre-existing output file is never overwritten in place.  After
the pre-run setup, either no file existed at the output path, or the
original content sits unchanged at the timestamped backup path; in both
cases the output path now holds a fresh empty file. -/
theorem backup_preserves_existing (fs : FileSystem) (outputPath timestamp : Str) :
    (fs outputPath = none ∨
      runSetup fs outputPath timestamp (backupPath outputPath timestamp) =
        fs outputPath) ∧
    runSetup fs outputPath timestamp outputPath = some [] := by
  constructor
  · by_cases h : (fs outputPath).isSome
    · right
      rw [runSetup, osCreate, backupOutputFile, if_pos h, osRename]
      rw [if_neg (backupPath_ne outputPath timestamp), if_pos rfl]
    · left
      rw [← Option.not_isSome_iff_eq_none]
      simpa using h
  · rw [runSetup, osCreate, if_pos rfl]

/-- C10: `BuildCommand` returns exactly the whitespace tokenization of the
substituted template: every argv element is non-empty and free of white
space; a substituted value containing a space expands into several argv
elements (quoting is not preserved); an empty substitution contributes no
element. -/
theorem BuildCommand_tokenization :
    (∀ cm toolName inputData args tempOutputFile wordlist out,
      BuildCommand cm toolName inputData args tempOutputFile wordlist =
        some out →
      ∀ tok ∈ out, tok ≠ [] ∧ ∀ c ∈ tok, unicodeIsSpace c = false) ∧
    BuildCommand echoCM (chars "echo") (chars "a b") [] [] [] =
      some [chars "echo", chars "a", chars "b"] ∧
    BuildCommand spacedCM (chars "tool") (chars "x") [] [] [] =
      some [chars "tool", chars "end"] := by
  refine ⟨?_, ?_, ?_⟩
  · intro cm toolName inputData args tempOutputFile wordlist out h tok htok
    rcases hcfg : GetToolConfig cm toolName with _ | tc
    · rw [BuildCommand, hcfg] at h
      exact absurd h (by simp)
    · rw [BuildCommand, hcfg] at h
      simp only [Option.some_inj] at h
      subst h
      exact fields_sound _ tok htok
  · simp [BuildCommand, GetToolConfig, echoCM, echoToolConfig, goToLower,
      toLowerChar, goJoin, List.lookup, replaceAll, replaceAllAux,
      beginsWith, fields, fieldsAux, unicodeIsSpace, chars]
  · simp [BuildCommand, GetToolConfig, spacedCM, spacedToolConfig, goToLower,
      toLowerChar, goJoin, List.lookup, List.intercalate, replaceAll,
      replaceAllAux, beginsWith, fields, fieldsAux, unicodeIsSpace, chars]

/-- Witness for C10: the no-whitespace guarantee evaluated on the `echo`
example. -/
theorem BuildCommand_tokenization_witness :
    BuildCommand echoCM (chars "echo") (chars "a b") [] [] [] =
      some [chars "echo", chars "a", chars "b"] ∧
    (∀ tok ∈ [chars "echo", chars "a", chars "b"],
      tok ≠ [] ∧ ∀ c ∈ tok, unicodeIsSpace c = false) :=
  ⟨BuildCommand_tokenization.2.1,
    BuildCommand_tokenization.1 echoCM (chars "echo") (chars "a b") [] [] []
      [chars "echo", chars "a", chars "b"] BuildCommand_tokenization.2.1⟩

theorem arjunArgsLoop_skip (rest : List Str) (t d r T : Bool) :
    arjunArgsLoop rest true t d r T =
      arjunArgsLoop (rest.drop 1) false t d r T := by
  cases rest with
  | nil => rfl
  | cons b rest => rfl

theorem arjunArgsLoop_decomp :
    ∀ args (t d r T : Bool),
      arjunArgsLoop args false t d r T =
        (filterOutputArgs args,
          t || hasFlagIn (chars "-t") (chars "--threads") args,
          d || hasFlagIn (chars "-d") (chars "--delay") args,
          r || hasFlagIn (chars "--rate-limit") (chars "--rate-limit") args,
          T || hasFlagIn (chars "-T") (chars "--timeout") args) := by
  have key : ∀ n args, List.length args ≤ n → ∀ (t d r T : Bool),
      arjunArgsLoop args false t d r T =
        (filterOutputArgs args,
          t || hasFlagIn (chars "-t") (chars "--threads") args,
          d || hasFlagIn (chars "-d") (chars "--delay") args,
          r || hasFlagIn (chars "--rate-limit") (chars "--rate-limit") args,
          T || hasFlagIn (chars "-T") (chars "--timeout") args) := by
    intro n
    induction n with
    | zero =>
      intro args hlen t d r T
      have : args = [] := List.length_eq_zero.mp (Nat.le_zero.mp hlen)
      subst this
      simp [arjunArgsLoop, filterOutputArgs, hasFlagIn]
    | succ n ih =>
      intro args hlen t d r T
      cases args with
      | nil => simp [arjunArgsLoop, filterOutputArgs, hasFlagIn]
      | cons a rest =>
        by_cases hout : isOutputFlag a
        · rw [show arjunArgsLoop (a :: rest) false t d r T =
              arjunArgsLoop rest true t d r T by
                simp [arjunArgsLoop, hout]]
          rw [arjunArgsLoop_skip,
            ih (rest.drop 1) (by simp at hlen ⊢; omega) t d r T]
          rw [filterOutputArgs, if_pos hout]
          rw [hasFlagIn, if_pos hout, hasFlagIn, if_pos hout,
            hasFlagIn, if_pos hout, hasFlagIn, if_pos hout]
        · rw [show arjunArgsLoop (a :: rest) false t d r T =
              (a :: (arjunArgsLoop rest false
                  (t || (a == chars "-t" || a == chars "--threads"))
                  (d || (a == chars "-d" || a == chars "--delay"))
                  (r || (a == chars "--rate-limit"))
                  (T || (a == chars "-T" || a == chars "--timeout"))).1,
                (arjunArgsLoop rest false
                  (t || (a == chars "-t" || a == chars "--threads"))
                  (d || (a == chars "-d" || a == chars "--delay"))
                  (r || (a == chars "--rate-limit"))
                  (T || (a == chars "-T" || a == chars "--timeout"))).2) by
                simp [arjunArgsLoop, hout]]
          rw [ih rest (by simp at hlen ⊢; omega)]
          rw [filterOutputArgs, if_neg hout]
          rw [hasFlagIn, if_neg hout, hasFlagIn, if_neg hout,
            hasFlagIn, if_neg hout, hasFlagIn, if_neg hout]
          simp [Bool.or_assoc]
  intro args
  exact key args.length args (Nat.le_refl _)

theorem filterOutputArgs_sublist :
    ∀ args, List.Sublist (filterOutputArgs args) args := by
  have key : ∀ n args, List.length args ≤ n →
      List.Sublist (filterOutputArgs args) args := by
    intro n
    induction n with
    | zero =>
      intro args hlen
      have : args = [] := List.length_eq_zero.mp (Nat.le_zero.mp hlen)
      subst this
      simp [filterOutputArgs]
    | succ n ih =>
      intro args hlen
      cases args with
      | nil => simp [filterOutputArgs]
      | cons a rest =>
        by_cases hout : isOutputFlag a
        · rw [filterOutputArgs, if_pos hout]
          refine List.Sublist.trans
            (ih (rest.drop 1) (by simp at hlen ⊢; omega)) ?_
          exact List.Sublist.trans (List.drop_sublist 1 rest)
            (List.sublist_cons_self a rest)
        · rw [filterOutputArgs, if_neg hout]
          exact List.Sublist.cons₂ a (ih rest (by simp at hlen ⊢; omega))
  intro args
  exact key args.length args (Nat.le_refl _)

/-- C5 amended (Arjun strategy): the built command is `arjun -i <input>`
followed by the user arguments (with output flags stripped, otherwise
preserved as a sublist, so user-supplied values survive verbatim), and a
default pair is appended for exactly those auto-tuning flags the user did
not mention among the kept arguments. -/
theorem arjun_auto_tuning_merge (inputData : Str) (args : List Str) :
    ArjunBuildCommand inputData args =
      chars "arjun" :: chars "-i" :: inputData :: (filterOutputArgs args ++
        (if hasFlagIn (chars "-t") (chars "--threads") args then []
          else [chars "-t", chars "10"]) ++
        (if hasFlagIn (chars "-d") (chars "--delay") args then []
          else [chars "-d", chars "0"]) ++
        (if hasFlagIn (chars "--rate-limit") (chars "--rate-limit") args then []
          else [chars "--rate-limit", chars "50"]) ++
        (if hasFlagIn (chars "-T") (chars "--timeout") args then []
          else [chars "-T", chars "5"])) ∧
    List.Sublist (filterOutputArgs args) args := by
  constructor
  · rw [ArjunBuildCommand, arjunArgsLoop_decomp]
    cases hasFlagIn (chars "-t") (chars "--threads") args <;>
      cases hasFlagIn (chars "-d") (chars "--delay") args <;>
      cases hasFlagIn (chars "--rate-limit") (chars "--rate-limit") args <;>
      cases hasFlagIn (chars "-T") (chars "--timeout") args <;> simp
  · exact filterOutputArgs_sublist args

/-- C5 counterexample: in the config-template path actually used by the
runner, the configured auto-tuning flags are substituted unconditionally:
with the user already passing `-t 5`, the built argv still contains the
configured default `-t 50` — the flag occurs twice. -/
theorem config_auto_tuning_counterexample :
    BuildCommand httpxCM (chars "httpx") (chars "chunk_0.txt")
        [chars "-t", chars "5"] (chars "temp_output_0.txt") [] =
      some [chars "httpx", chars "-l", chars "chunk_0.txt", chars "-t",
        chars "50", chars "-t", chars "5", chars "-o",
        chars "temp_output_0.txt"] ∧
    List.count (chars "-t") [chars "httpx", chars "-l", chars "chunk_0.txt",
      chars "-t", chars "50", chars "-t", chars "5", chars "-o",
      chars "temp_output_0.txt"] = 2 := by
  constructor
  · simp [BuildCommand, GetToolConfig, httpxCM, httpxToolConfig, goToLower,
      toLowerChar, goJoin, List.lookup, List.intercalate, replaceAll,
      replaceAllAux, beginsWith, fields, fieldsAux, unicodeIsSpace, chars]
  · decide

/-- C3 counterexample: a task still waiting for an admission slot when
cancellation triggers can take the cancel branch of the `runTasks`
select and return without any status write: the run reaches a terminal
state in which the task is still `Pending`, never `Failed` — refuting
"every task still Pending eventually reaches Failed". -/
theorem cancelled_waiting_task_stays_pending :
    Relation.ReflTransGen TaskStep
      ⟨RTLoc.atSelect, taskPending, false, false⟩
      ⟨RTLoc.returned, taskPending, false, true⟩ ∧
    nextStates ⟨RTLoc.returned, taskPending, false, true⟩ = [] ∧
    (⟨RTLoc.returned, taskPending, false, true⟩ : TaskRunState).status =
      taskPending := by
  have h01 : TaskStep ⟨RTLoc.atSelect, taskPending, false, false⟩
      ⟨RTLoc.atSelect, taskPending, false, true⟩ := by
    show (⟨RTLoc.atSelect, taskPending, false, true⟩ : TaskRunState) ∈
      nextStates ⟨RTLoc.atSelect, taskPending, false, false⟩
    decide
  have h12 : TaskStep ⟨RTLoc.atSelect, taskPending, false, true⟩
      ⟨RTLoc.returned, taskPending, false, true⟩ := by
    show (⟨RTLoc.returned, taskPending, false, true⟩ : TaskRunState) ∈
      nextStates ⟨RTLoc.atSelect, taskPending, false, true⟩
    decide
  exact ⟨Relation.ReflTransGen.tail (Relation.ReflTransGen.single h01) h12,
    by decide, rfl⟩

/-- C3 amended: once cancellation has triggered, a task that is still
`Pending` (waiting for a slot, at the first check, or about to be marked
running) never launches an external process, and every terminal state it
can reach is either `Failed`, or — only for a task that took the cancel
branch of the admission select — still `Pending` (abandoned without a
status write, not `Failed`). -/
theorem post_cancel_task_fate (s0 s : TaskRunState)
    (hst : s0.status = taskPending) (hc : s0.cancelled = true)
    (hl : s0.launched = false)
    (hloc : s0.loc = RTLoc.atSelect ∨ s0.loc = RTLoc.checkA ∨
      s0.loc = RTLoc.assignRunning)
    (hreach : Relation.ReflTransGen TaskStep s0 s) :
    s.launched = false ∧ s.loc ≠ RTLoc.launchedLoc ∧ s.cancelled = true ∧
    (nextStates s = [] →
      (s.loc = RTLoc.returned ∧ s.status = taskPending) ∨
      s.status = taskFailed) := by
  have inv : s.cancelled = true ∧ s.launched = false ∧
      s.loc ≠ RTLoc.launchedLoc ∧
      ((s.loc = RTLoc.atSelect ∨ s.loc = RTLoc.returned) →
        s.status = taskPending) ∧
      (s.loc = RTLoc.failedLoc → s.status = taskFailed) := by
    induction hreach with
    | refl =>
      refine ⟨hc, hl, ?_, ?_, ?_⟩
      · rcases hloc with h | h | h <;> simp [h]
      · intro hsel
        exact hst
      · intro hfail
        rcases hloc with h | h | h <;> rw [h] at hfail <;>
          exact absurd hfail (by simp)
    | tail hab hstep ih =>
      rename_i b c
      obtain ⟨ihc, ihl, ihnl, ihsel, ihfail⟩ := ih
      rw [TaskStep] at hstep
      cases hb : b.loc with
      | atSelect =>
        simp only [nextStates, hb, ihc] at hstep
        simp only [Bool.true_eq_false, if_false, if_true, List.nil_append,
          List.mem_cons, List.mem_singleton, List.not_mem_nil, or_false]
          at hstep
        rcases hstep with h | h <;> subst h
        · exact ⟨rfl, ihl, by simp, by simp, by simp⟩
        · refine ⟨rfl, ihl, by simp, ?_, by simp⟩
          intro hsel
          show b.status = taskPending
          exact ihsel (Or.inl hb)
      | returned =>
        simp only [nextStates, hb, ihc] at hstep
        simp at hstep
      | checkA =>
        simp only [nextStates, hb, ihc] at hstep
        simp only [Bool.true_eq_false, if_false, if_true, List.nil_append,
          List.mem_singleton] at hstep
        subst hstep
        exact ⟨rfl, ihl, by simp, by simp, fun _ => rfl⟩
      | assignRunning =>
        simp only [nextStates, hb, ihc] at hstep
        simp only [Bool.true_eq_false, if_false, List.nil_append,
          List.mem_singleton] at hstep
        subst hstep
        exact ⟨rfl, ihl, by simp, by simp, by simp⟩
      | checkB =>
        simp only [nextStates, hb, ihc] at hstep
        simp only [Bool.true_eq_false, if_false, if_true, List.nil_append,
          List.mem_singleton] at hstep
        subst hstep
        exact ⟨rfl, ihl, by simp, by simp, fun _ => rfl⟩
      | checkC =>
        simp only [nextStates, hb, ihc] at hstep
        simp only [Bool.true_eq_false, if_false, if_true, List.nil_append,
          List.mem_singleton] at hstep
        subst hstep
        exact ⟨rfl, ihl, by simp, by simp, fun _ => rfl⟩
      | failedLoc =>
        simp only [nextStates, hb, ihc] at hstep
        simp at hstep
      | launchedLoc => exact absurd hb ihnl
  obtain ⟨ic, il, inl, isel, ifail⟩ := inv
  refine ⟨il, inl, ic, ?_⟩
  intro hterm
  rcases hs : s.loc with _ | _ | _ | _ | _ | _ | _ | _
  · rw [nextStates, ic, hs] at hterm
    simp at hterm
  · exact Or.inl ⟨rfl, isel (Or.inr hs)⟩
  · rw [nextStates, ic, hs] at hterm
    simp at hterm
  · rw [nextStates, ic, hs] at hterm
    simp at hterm
  · rw [nextStates, ic, hs] at hterm
    simp at hterm
  · rw [nextStates, ic, hs] at hterm
    simp at hterm
  · exact Or.inr (ifail hs)
  · exact absurd hs inl

/-- Witness for C3 amended at a task sitting at the admission select with
the token already triggered. -/
theorem post_cancel_task_fate_witness :
    ((⟨RTLoc.atSelect, taskPending, false, true⟩ : TaskRunState).status =
        taskPending ∧
      (⟨RTLoc.atSelect, taskPending, false, true⟩ : TaskRunState).cancelled =
        true) ∧
    ((⟨RTLoc.atSelect, taskPending, false, true⟩ : TaskRunState).launched =
        false ∧
      (⟨RTLoc.atSelect, taskPending, false, true⟩ : TaskRunState).loc ≠
        RTLoc.launchedLoc ∧
      (⟨RTLoc.atSelect, taskPending, false, true⟩ : TaskRunState).cancelled =
        true ∧
      (nextStates ⟨RTLoc.atSelect, taskPending, false, true⟩ = [] →
        ((⟨RTLoc.atSelect, taskPending, false, true⟩ : TaskRunState).loc =
            RTLoc.returned ∧
          (⟨RTLoc.atSelect, taskPending, false, true⟩ : TaskRunState).status =
            taskPending) ∨
        (⟨RTLoc.atSelect, taskPending, false, true⟩ : TaskRunState).status =
          taskFailed)) :=
  ⟨⟨rfl, rfl⟩,
    post_cancel_task_fate ⟨RTLoc.atSelect, taskPending, false, true⟩
      ⟨RTLoc.atSelect, taskPending, false, true⟩ rfl rfl rfl (Or.inl rfl)
      Relation.ReflTransGen.refl⟩

end Bulker
